import Mathlib

/-!
Verification of the SetTheory Object representation (SetInternal.h).

The header declares a polymorphic node type `SetObject` with two concrete
variants — `ActualSet` (a set whose elements are the children, held as an
ordered `std::set<Object>` with duplicates collapsed) and `ActualObject`
(an atom carrying a `name` string) — wrapped by the value type `Object`
(a shared, read-only handle) whose only comparison is `operator<`.

The header declares `operator<`, `isSet`, `asSet` and `toString` but their
implementations are not part of the given sources, so those behaviours are
modelled from the specification (each such definition's doc comment says
so).  An `Object`/Handle is identified with the tree it references: the
spec makes sharing and separate allocation unobservable (only the order
`<` is exposed, and it depends on content alone), so distinct allocations
of the same content are one and the same value of the embedding.
-/

namespace SetTheory

/-- The node type of SetInternal.h: `ActualObject` is an atom carrying a
name string, `ActualSet` is a set node whose children are its elements.
A `SetObject.setNode` carries its children as a list; well-formed nodes
(the ones `std::set<Object>` produces, see `buildChildren`) keep that
list strictly ascending in the canonical order with duplicates
collapsed. -/
inductive SetObject where
  | atom (name : String)
  | setNode (children : List SetObject)

/-- Modelled from the spec: lexicographic comparison of two names,
character by character on the Unicode scalar values, the comparison
`std::string::operator<` performs on the atoms' names.  Returns the
three-way verdict the comparator consumes. -/
def cmpChars : List Char → List Char → Ordering
  | [], [] => .eq
  | [], _ :: _ => .lt
  | _ :: _, [] => .gt
  | c :: cs, d :: ds =>
    if c.val.toNat < d.val.toNat then .lt
    else if d.val.toNat < c.val.toNat then .gt
    else cmpChars cs ds

/-- Modelled from the spec: name comparison of two atoms is `cmpChars`
on the underlying character lists. -/
def cmpStr (a b : String) : Ordering := cmpChars a.data b.data

/-- Two characters compare `<` exactly when their scalar values do. -/
theorem char_lt_iff (c d : Char) : c < d ↔ c.val.toNat < d.val.toNat := by
  rw [Char.lt_iff_val_lt_val, UInt32.lt_def]
  exact BitVec.lt_def

/-- Characters with equal scalar values are equal. -/
theorem char_eq_of_toNat_eq {c d : Char} (h : c.val.toNat = d.val.toNat) : c = d :=
  Char.eq_of_val_eq (UInt32.eq_of_toBitVec_eq (BitVec.toNat_injective h))

/-- Swapping the arguments of `cmpChars` swaps the verdict. -/
theorem cmpChars_swap : ∀ s t : List Char, cmpChars t s = (cmpChars s t).swap
  | [], [] => rfl
  | [], _ :: _ => rfl
  | _ :: _, [] => rfl
  | c :: cs, d :: ds => by
    simp only [cmpChars]
    rcases Nat.lt_trichotomy c.val.toNat d.val.toNat with h | h | h
    · simp [h, Nat.lt_asymm h, Ordering.swap]
    · have hcd : c = d := char_eq_of_toNat_eq h
      subst hcd
      simp [cmpChars_swap cs ds]
    · simp [h, Nat.lt_asymm h, Ordering.swap]

/-- The name comparison returns `eq` exactly on equal character lists. -/
theorem cmpChars_eq_iff : ∀ s t : List Char, cmpChars s t = .eq ↔ s = t
  | [], [] => by simp [cmpChars]
  | [], _ :: _ => by simp [cmpChars]
  | _ :: _, [] => by simp [cmpChars]
  | c :: cs, d :: ds => by
    simp only [cmpChars]
    rcases Nat.lt_trichotomy c.val.toNat d.val.toNat with h | h | h
    · have : c ≠ d := fun he => absurd h (by rw [he]; omega)
      simp [h, this]
    · have hcd : c = d := char_eq_of_toNat_eq h
      subst hcd
      simp [cmpChars_eq_iff cs ds]
    · have : c ≠ d := fun he => absurd h (by rw [he]; omega)
      simp [h, Nat.lt_asymm h, this]

/-- The name comparison is transitive in its strict verdict. -/
theorem cmpChars_trans : ∀ s t u : List Char,
    cmpChars s t = .lt → cmpChars t u = .lt → cmpChars s u = .lt
  | [], [], _, h1, _ => by simp [cmpChars] at h1
  | [], _ :: _, [], _, h2 => by simp [cmpChars] at h2
  | [], _ :: _, _ :: _, _, _ => rfl
  | _ :: _, [], _, h1, _ => by simp [cmpChars] at h1
  | _ :: _, _ :: _, [], _, h2 => by simp [cmpChars] at h2
  | c :: cs, d :: ds, e :: es, h1, h2 => by
    simp only [cmpChars] at h1 h2 ⊢
    rcases Nat.lt_trichotomy c.val.toNat d.val.toNat with hcd | hcd | hcd
    · rcases Nat.lt_trichotomy d.val.toNat e.val.toNat with hde | hde | hde
      · have hce : c.val.toNat < e.val.toNat := by omega
        simp [hce]
      · have hce : c.val.toNat < e.val.toNat := by omega
        simp [hce]
      · simp [Nat.lt_asymm hde, hde] at h2
    · rcases Nat.lt_trichotomy d.val.toNat e.val.toNat with hde | hde | hde
      · have hce : c.val.toNat < e.val.toNat := by omega
        simp [hce]
      · have hce : ¬ c.val.toNat < e.val.toNat := by omega
        have hec : ¬ e.val.toNat < c.val.toNat := by omega
        simp [hcd, Nat.lt_irrefl] at h1
        simp [hde, Nat.lt_irrefl] at h2
        simp [hce, hec]
        exact cmpChars_trans cs ds es h1 h2
      · simp [Nat.lt_asymm hde, hde] at h2
    · simp [hcd, Nat.lt_asymm hcd] at h1

/-- The strict verdict of `cmpChars` is exactly the standard lexicographic
order `List.Lex (· < ·)` on the character lists. -/
theorem cmpChars_lt_iff_lex : ∀ s t : List Char,
    cmpChars s t = .lt ↔ List.Lex (· < ·) s t
  | [], [] => by
    constructor
    · intro h
      simp [cmpChars] at h
    · intro h
      cases h
  | [], _ :: _ => ⟨fun _ => List.Lex.nil, fun _ => rfl⟩
  | _ :: _, [] => by
    constructor
    · intro h
      simp [cmpChars] at h
    · intro h
      cases h
  | c :: cs, d :: ds => by
    simp only [cmpChars]
    rcases Nat.lt_trichotomy c.val.toNat d.val.toNat with h | h | h
    · rw [if_pos h]
      exact ⟨fun _ => List.Lex.rel ((char_lt_iff c d).mpr h), fun _ => rfl⟩
    · have hcd : c = d := char_eq_of_toNat_eq h
      subst hcd
      simp only [Nat.lt_irrefl, if_false, if_neg (Nat.lt_irrefl _)]
      constructor
      · intro hl
        exact List.Lex.cons ((cmpChars_lt_iff_lex cs ds).mp hl)
      · intro hl
        cases hl with
        | cons h2 => exact (cmpChars_lt_iff_lex cs ds).mpr h2
        | rel h2 => exact absurd h2 (lt_irrefl c)
    · have hnd : ¬ c.val.toNat < d.val.toNat := Nat.lt_asymm h
      simp only [if_neg hnd, if_pos h]
      constructor
      · intro hl
        exact Ordering.noConfusion hl
      · intro hl
        cases hl with
        | cons h2 => exact absurd h (Nat.lt_irrefl _)
        | rel h2 => exact absurd ((char_lt_iff c d).mp h2) hnd

mutual

/-- Modelled from the spec: the three-way core of `Object::operator<`
(whose implementation is not among the given sources).  Rule 1, kind
precedence: an atom orders before every set node.  Rule 2: atoms compare
lexicographically by name.  Rule 3: set nodes compare size first (fewer
children orders first), then children pairwise via `cmpList`. -/
def cmpObj : SetObject → SetObject → Ordering
  | .atom a, .atom b => cmpStr a b
  | .atom _, .setNode _ => .lt
  | .setNode _, .atom _ => .gt
  | .setNode xs, .setNode ys =>
    if xs.length < ys.length then .lt
    else if ys.length < xs.length then .gt
    else cmpList xs ys

/-- Modelled from the spec: pairwise comparison of two children lists in
canonical order — the first non-equivalent pair decides, and two empty
remainders are equivalent. -/
def cmpList : List SetObject → List SetObject → Ordering
  | [], [] => .eq
  | [], _ :: _ => .lt
  | _ :: _, [] => .gt
  | x :: xs, y :: ys => (cmpObj x y).then (cmpList xs ys)

end

/-- Modelled from the spec: `Object::operator<` — true exactly when the
three-way comparison says the left Handle orders strictly first. -/
def lt (a b : SetObject) : Bool := decide (cmpObj a b = Ordering.lt)

/-- Two Handles are equivalent under the order when neither `operator<`
the other — the spec's notion of extensional equality. -/
def equivO (a b : SetObject) : Prop := lt a b = false ∧ lt b a = false

/-- Modelled from the spec: `isSet` — true for a set node, false for an
atom; the implementations of `ActualSet::isSet`/`ActualObject::isSet` are
not among the given sources. -/
def isSet : SetObject → Bool
  | .atom _ => false
  | .setNode _ => true

/-- The error taxonomy of the spec: exactly one domain-specific failure
kind, TypeMismatch. -/
inductive SetError where
  | typeMismatch
deriving DecidableEq

/-- Modelled from the spec: `asSet` — the children for a set node, a
TypeMismatch failure for an atom (the implementations of
`ActualSet::asSet`/`ActualObject::asSet` and the free `asSet` helper are
not among the given sources). -/
def asSet : SetObject → Except SetError (List SetObject)
  | .atom _ => .error .typeMismatch
  | .setNode cs => .ok cs

/-- Modelled from the spec: one `std::set<Object>::insert` step — place
the new element at its ordered position, dropping it when an equivalent
element is already present (duplicates collapsed). -/
def insertElem (x : SetObject) : List SetObject → List SetObject
  | [] => [x]
  | y :: ys =>
    match cmpObj x y with
    | .lt => x :: y :: ys
    | .eq => y :: ys
    | .gt => y :: insertElem x ys

/-- Modelled from the spec: the ordered, duplicate-collapsed children
list a `std::set<Object>` holds after inserting every element of the
given collection. -/
def buildChildren (l : List SetObject) : List SetObject :=
  l.foldr insertElem []

/-- Modelled from the spec: construct an `ActualSet` node from a
collection of element Handles, as the construction layer does by filling
a `std::set<Object>`. -/
def mkSet (l : List SetObject) : SetObject :=
  .setNode (buildChildren l)

mutual

/-- Modelled from the spec: `toString` — an atom renders as its name
verbatim, a set node as a brace-delimited, comma-separated rendering of
its children (the implementations are not among the given sources). -/
def toString : SetObject → String
  | .atom n => n
  | .setNode cs => "\x7b" ++ childrenToString cs ++ "\x7d"

/-- Modelled from the spec: the comma-separated rendering of a children
list, in the order the list holds them. -/
def childrenToString : List SetObject → String
  | [] => ""
  | [x] => toString x
  | x :: y :: rest => toString x ++ ", " ++ childrenToString (y :: rest)

end

mutual

/-- Height of a tree: 0 for an atom, one more than the tallest child for
a set node — the bound on the comparator's recursion depth. -/
def height : SetObject → Nat
  | .atom _ => 0
  | .setNode cs => heightList cs + 1

/-- The tallest height among a list of children (0 when empty). -/
def heightList : List SetObject → Nat
  | [] => 0
  | x :: xs => max (height x) (heightList xs)

end

mutual

/-- The comparator with an explicit recursion-depth budget: descending
into the children of two set nodes consumes one unit of fuel, and the
comparison reports `none` only when the budget is exhausted.  Evaluating
it against `cmpObj` makes the spec's termination argument a theorem. -/
def cmpObjFuel : Nat → SetObject → SetObject → Option Ordering
  | _, .atom a, .atom b => some (cmpStr a b)
  | _, .atom _, .setNode _ => some .lt
  | _, .setNode _, .atom _ => some .gt
  | 0, .setNode _, .setNode _ => none
  | fuel + 1, .setNode xs, .setNode ys =>
    if xs.length < ys.length then some .lt
    else if ys.length < xs.length then some .gt
    else cmpListFuel fuel xs ys

/-- Fuelled pairwise comparison of children lists: each element
comparison runs on the given budget. -/
def cmpListFuel : Nat → List SetObject → List SetObject → Option Ordering
  | _, [], [] => some .eq
  | _, [], _ :: _ => some .lt
  | _, _ :: _, [] => some .gt
  | fuel, x :: xs, y :: ys =>
    match cmpObjFuel fuel x y with
    | none => none
    | some .lt => some .lt
    | some .gt => some .gt
    | some .eq => cmpListFuel fuel xs ys

end

mutual

/-- Swapping the arguments of the comparator swaps the verdict — the
asymmetry half of the strict weak ordering. -/
theorem cmpObj_swap : ∀ a b : SetObject, cmpObj b a = (cmpObj a b).swap
  | .atom a, .atom b => cmpChars_swap a.data b.data
  | .atom _, .setNode _ => rfl
  | .setNode _, .atom _ => rfl
  | .setNode xs, .setNode ys => by
    simp only [cmpObj]
    rcases Nat.lt_trichotomy xs.length ys.length with h | h | h
    · simp [h, Nat.lt_asymm h, Ordering.swap]
    · simp [h, cmpList_swap xs ys]
    · simp [h, Nat.lt_asymm h, Ordering.swap]

/-- Swapping the argument lists of the pairwise comparison swaps the
verdict. -/
theorem cmpList_swap : ∀ l₁ l₂ : List SetObject, cmpList l₂ l₁ = (cmpList l₁ l₂).swap
  | [], [] => rfl
  | [], _ :: _ => rfl
  | _ :: _, [] => rfl
  | x :: xs, y :: ys => by
    simp only [cmpList]
    rw [cmpObj_swap x y, cmpList_swap xs ys, ← Ordering.swap_then]

end

mutual

/-- The comparator answers `eq` exactly on structurally equal trees: in
this embedding, where one value stands for all allocations of the same
content, equivalence under the order is equality. -/
theorem cmpObj_eq_iff : ∀ a b : SetObject, cmpObj a b = .eq ↔ a = b
  | .atom a, .atom b => by
    simp only [cmpObj, cmpStr, cmpChars_eq_iff, SetObject.atom.injEq]
    constructor
    · intro h
      cases a
      cases b
      exact congrArg String.mk h
    · intro h
      rw [h]
  | .atom _, .setNode _ => by simp [cmpObj]
  | .setNode _, .atom _ => by simp [cmpObj]
  | .setNode xs, .setNode ys => by
    simp only [cmpObj]
    rcases Nat.lt_trichotomy xs.length ys.length with h | h | h
    · have hne : xs ≠ ys := fun he => by rw [he] at h; exact Nat.lt_irrefl _ h
      simp [h, hne]
    · simp [h, cmpList_eq_iff xs ys]
    · have hne : xs ≠ ys := fun he => by rw [he] at h; exact Nat.lt_irrefl _ h
      simp [h, Nat.lt_asymm h, hne]

/-- The pairwise comparison answers `eq` exactly on equal lists. -/
theorem cmpList_eq_iff : ∀ l₁ l₂ : List SetObject, cmpList l₁ l₂ = .eq ↔ l₁ = l₂
  | [], [] => by simp [cmpList]
  | [], _ :: _ => by simp [cmpList]
  | _ :: _, [] => by simp [cmpList]
  | x :: xs, y :: ys => by
    simp only [cmpList, Ordering.then_eq_eq]
    rw [cmpObj_eq_iff x y, cmpList_eq_iff xs ys]
    simp

end

mutual

/-- Transitivity of the comparator's strict verdict. -/
theorem cmpObj_trans : ∀ a b c : SetObject,
    cmpObj a b = .lt → cmpObj b c = .lt → cmpObj a c = .lt
  | .atom a, .atom b, .atom c, h1, h2 => cmpChars_trans a.data b.data c.data h1 h2
  | .atom _, .atom _, .setNode _, _, _ => rfl
  | .atom _, .setNode _, .atom _, _, h2 => by simp [cmpObj] at h2
  | .atom _, .setNode _, .setNode _, _, _ => rfl
  | .setNode _, .atom _, _, h1, _ => by simp [cmpObj] at h1
  | .setNode _, .setNode _, .atom _, _, h2 => by simp [cmpObj] at h2
  | .setNode xs, .setNode ys, .setNode zs, h1, h2 => by
    simp only [cmpObj] at h1 h2 ⊢
    rcases Nat.lt_trichotomy xs.length ys.length with hxy | hxy | hxy
    · rcases Nat.lt_trichotomy ys.length zs.length with hyz | hyz | hyz
      · have hxz : xs.length < zs.length := by omega
        simp [hxz]
      · have hxz : xs.length < zs.length := by omega
        simp [hxz]
      · simp [Nat.lt_asymm hyz, hyz] at h2
    · rcases Nat.lt_trichotomy ys.length zs.length with hyz | hyz | hyz
      · have hxz : xs.length < zs.length := by omega
        simp [hxz]
      · have h3 : ¬ xs.length < zs.length := by omega
        have h4 : ¬ zs.length < xs.length := by omega
        simp [hxy] at h1
        simp [hyz] at h2
        simp [h3, h4]
        exact cmpList_trans xs ys zs h1 h2
      · simp [Nat.lt_asymm hyz, hyz] at h2
    · simp [hxy, Nat.lt_asymm hxy] at h1

/-- Transitivity of the pairwise comparison's strict verdict. -/
theorem cmpList_trans : ∀ l₁ l₂ l₃ : List SetObject,
    cmpList l₁ l₂ = .lt → cmpList l₂ l₃ = .lt → cmpList l₁ l₃ = .lt
  | [], [], _, h1, _ => by simp [cmpList] at h1
  | [], _ :: _, [], _, h2 => by simp [cmpList] at h2
  | [], _ :: _, _ :: _, _, _ => rfl
  | _ :: _, [], _, h1, _ => by simp [cmpList] at h1
  | _ :: _, _ :: _, [], _, h2 => by simp [cmpList] at h2
  | x :: xs, y :: ys, z :: zs, h1, h2 => by
    simp only [cmpList, Ordering.then_eq_lt] at h1 h2 ⊢
    rcases h1 with h1 | ⟨h1e, h1l⟩
    · rcases h2 with h2 | ⟨h2e, h2l⟩
      · exact Or.inl (cmpObj_trans x y z h1 h2)
      · have hyz : y = z := (cmpObj_eq_iff y z).mp h2e
        exact Or.inl (hyz ▸ h1)
    · have hxy : x = y := (cmpObj_eq_iff x y).mp h1e
      subst hxy
      rcases h2 with h2 | ⟨h2e, h2l⟩
      · exact Or.inl h2
      · have hxz : x = z := (cmpObj_eq_iff x z).mp h2e
        subst hxz
        exact Or.inr ⟨h2e, cmpList_trans xs ys zs h1l h2l⟩

end

/-- The comparator is reflexive in its `eq` verdict. -/
theorem cmpObj_refl (a : SetObject) : cmpObj a a = .eq :=
  (cmpObj_eq_iff a a).mpr rfl

/-- The boolean `operator<` answers true exactly when the three-way
comparison says `lt`. -/
theorem lt_iff (a b : SetObject) : lt a b = true ↔ cmpObj a b = .lt := by
  simp [lt, decide_eq_true_eq]

/-- The boolean `operator<` answers false exactly when the three-way
comparison does not say `lt`. -/
theorem lt_eq_false_iff (a b : SetObject) : lt a b = false ↔ cmpObj a b ≠ .lt := by
  simp [lt, decide_eq_false_iff_not]

/-- The order is irreflexive: no Handle is less than itself. -/
theorem lt_irrefl_obj (a : SetObject) : lt a a = false := by
  unfold lt
  rw [cmpObj_refl]
  rfl

/-- The strict verdict of the comparator on two atoms is the
lexicographic order of the Mathlib `String` linear order. -/
theorem strLt_bridge (a b : String) : a < b ↔ List.Lex (· < ·) a.data b.data := by
  rw [String.lt_iff_toList_lt]
  exact Iff.rfl

/-- Equivalence under the order coincides with structural equality of
the embedded trees. -/
theorem equivO_iff_eq (a b : SetObject) : equivO a b ↔ a = b := by
  constructor
  · rintro ⟨h1, h2⟩
    rw [lt_eq_false_iff] at h1 h2
    rw [cmpObj_swap a b] at h2
    refine (cmpObj_eq_iff a b).mp ?_
    cases h : cmpObj a b with
    | lt => exact absurd h h1
    | eq => rfl
    | gt => rw [h] at h2; exact absurd rfl h2
  · intro h
    subst h
    exact ⟨lt_irrefl_obj _, lt_irrefl_obj _⟩

/-- Every member of an insertion result is the inserted element or an
old member. -/
theorem mem_insertElem : ∀ (l : List SetObject) (x z : SetObject),
    z ∈ insertElem x l → z = x ∨ z ∈ l
  | [], x, z, h => by
    simp only [insertElem, List.mem_singleton] at h
    exact Or.inl h
  | y :: ys, x, z, h => by
    cases hxy : cmpObj x y with
    | lt =>
      simp only [insertElem, hxy, List.mem_cons] at h
      rcases h with h | h | h
      · exact Or.inl h
      · exact Or.inr (by simp [h])
      · exact Or.inr (by simp [h])
    | eq =>
      simp only [insertElem, hxy] at h
      exact Or.inr h
    | gt =>
      simp only [insertElem, hxy, List.mem_cons] at h
      rcases h with h | h
      · exact Or.inr (by simp [h])
      · rcases mem_insertElem ys x z h with h2 | h2
        · exact Or.inl h2
        · exact Or.inr (by simp [h2])

/-- Insertion preserves strict ascending order of the children list. -/
theorem insertElem_pairwise : ∀ (l : List SetObject) (x : SetObject),
    List.Pairwise (fun a b => cmpObj a b = .lt) l →
    List.Pairwise (fun a b => cmpObj a b = .lt) (insertElem x l)
  | [], x, _ => by simp [insertElem]
  | y :: ys, x, h => by
    rcases List.pairwise_cons.mp h with ⟨hy, hys⟩
    cases hxy : cmpObj x y with
    | lt =>
      simp only [insertElem, hxy]
      refine List.pairwise_cons.mpr ⟨?_, h⟩
      intro z hz
      rcases List.mem_cons.mp hz with h2 | h2
      · rw [h2]
        exact hxy
      · exact cmpObj_trans x y z hxy (hy z h2)
    | eq =>
      simp only [insertElem, hxy]
      exact h
    | gt =>
      simp only [insertElem, hxy]
      refine List.pairwise_cons.mpr ⟨?_, insertElem_pairwise ys x hys⟩
      intro z hz
      rcases mem_insertElem ys x z hz with h2 | h2
      · rw [h2]
        rw [cmpObj_swap x y]
        rw [hxy]
        rfl
      · exact hy z h2

/-- Inserting a strictly smaller element and then a larger one lands in
the same list as the other way around. -/
theorem insertElem_comm_lt : ∀ (l : List SetObject) (x y : SetObject),
    cmpObj x y = .lt →
    insertElem x (insertElem y l) = insertElem y (insertElem x l)
  | [], x, y, hxy => by
    have hyx : cmpObj y x = .gt := by rw [cmpObj_swap x y, hxy]; rfl
    simp [insertElem, hxy, hyx]
  | z :: zs, x, y, hxy => by
    have hyx : cmpObj y x = .gt := by rw [cmpObj_swap x y, hxy]; rfl
    cases hyz : cmpObj y z with
    | lt =>
      have hxz : cmpObj x z = .lt := cmpObj_trans x y z hxy hyz
      simp [insertElem, hyz, hxz, hxy, hyx]
    | eq =>
      have hzy : z = y := ((cmpObj_eq_iff y z).mp hyz).symm
      subst hzy
      simp [insertElem, hyz, hxy, hyx, cmpObj_refl]
    | gt =>
      cases hxz : cmpObj x z with
      | lt =>
        simp [insertElem, hyz, hxz, hxy, hyx]
      | eq =>
        have hzx : z = x := ((cmpObj_eq_iff x z).mp hxz).symm
        subst hzx
        simp [insertElem, hyz, hxz, cmpObj_refl]
      | gt =>
        simp only [insertElem, hyz, hxz]
        rw [insertElem_comm_lt zs x y hxy]

/-- Insertions into a children list commute. -/
theorem insertElem_comm (l : List SetObject) (x y : SetObject) :
    insertElem x (insertElem y l) = insertElem y (insertElem x l) := by
  cases hxy : cmpObj x y with
  | lt => exact insertElem_comm_lt l x y hxy
  | eq => rw [(cmpObj_eq_iff x y).mp hxy]
  | gt =>
    have hyx : cmpObj y x = .lt := by
      rw [cmpObj_swap x y, hxy]
      rfl
    exact (insertElem_comm_lt l y x hyx).symm

/-- Building a children list from a cons is inserting the head into the
build of the tail. -/
theorem buildChildren_cons (x : SetObject) (l : List SetObject) :
    buildChildren (x :: l) = insertElem x (buildChildren l) := rfl

/-- Two collections holding the same elements (as multisets) build the
identical ordered, duplicate-collapsed children list. -/
theorem buildChildren_perm {l₁ l₂ : List SetObject} (p : l₁.Perm l₂) :
    buildChildren l₁ = buildChildren l₂ := by
  induction p with
  | nil => rfl
  | cons x _ ih => rw [buildChildren_cons, buildChildren_cons, ih]
  | swap x y l => exact insertElem_comm (buildChildren l) y x
  | trans _ _ ih1 ih2 => exact ih1.trans ih2

/-- The built children list is strictly ascending in the canonical
order. -/
theorem buildChildren_pairwise : ∀ l : List SetObject,
    List.Pairwise (fun a b => cmpObj a b = .lt) (buildChildren l)
  | [] => List.Pairwise.nil
  | x :: l => by
    rw [buildChildren_cons]
    exact insertElem_pairwise (buildChildren l) x (buildChildren_pairwise l)

/-- On equal-length lists the pairwise comparison says `lt` exactly when
the lists agree on a (possibly empty) common prefix and the first pair
beyond it compares strictly — the spec's "first non-equivalent child
pair in canonical order decides". -/
theorem cmpList_lt_char : ∀ l₁ l₂ : List SetObject, l₁.length = l₂.length →
    (cmpList l₁ l₂ = .lt ↔
      ∃ p x xs y ys, l₁ = p ++ x :: xs ∧ l₂ = p ++ y :: ys ∧ cmpObj x y = .lt)
  | [], [], _ => by
    constructor
    · intro h
      simp [cmpList] at h
    · rintro ⟨p, x, xs, y, ys, h1, -, -⟩
      exact absurd h1 (by simp)
  | [], _ :: _, h => by simp at h
  | _ :: _, [], h => by simp at h
  | a :: as, b :: bs, h => by
    have hlen : as.length = bs.length := by simpa using h
    cases hab : cmpObj a b with
    | lt =>
      constructor
      · intro _
        exact ⟨[], a, as, b, bs, rfl, rfl, hab⟩
      · intro _
        simp [cmpList, hab, Ordering.then]
    | eq =>
      have hab2 : a = b := (cmpObj_eq_iff a b).mp hab
      subst hab2
      have hiff := cmpList_lt_char as bs hlen
      constructor
      · intro hl
        have h2 : cmpList as bs = .lt := by
          simpa [cmpList, hab, Ordering.then] using hl
        rcases hiff.mp h2 with ⟨p, x, xs, y, ys, e1, e2, hxy⟩
        exact ⟨a :: p, x, xs, y, ys, by simp [e1], by simp [e2], hxy⟩
      · rintro ⟨p, x, xs, y, ys, e1, e2, hxy⟩
        cases p with
        | nil =>
          simp only [List.nil_append, List.cons.injEq] at e1 e2
          rcases e1 with ⟨e1a, -⟩
          rcases e2 with ⟨e2a, -⟩
          rw [← e1a, ← e2a, cmpObj_refl] at hxy
          exact Ordering.noConfusion hxy
        | cons q qs =>
          simp only [List.cons_append, List.cons.injEq] at e1 e2
          rcases e1 with ⟨-, e1b⟩
          rcases e2 with ⟨-, e2b⟩
          have h2 : cmpList as bs = .lt :=
            hiff.mpr ⟨qs, x, xs, y, ys, e1b, e2b, hxy⟩
          simp [cmpList, hab, Ordering.then, h2]
    | gt =>
      constructor
      · intro hl
        simp [cmpList, hab, Ordering.then] at hl
      · rintro ⟨p, x, xs, y, ys, e1, e2, hxy⟩
        cases p with
        | nil =>
          simp only [List.nil_append, List.cons.injEq] at e1 e2
          rcases e1 with ⟨e1a, -⟩
          rcases e2 with ⟨e2a, -⟩
          rw [← e1a, ← e2a] at hxy
          rw [hxy] at hab
          exact Ordering.noConfusion hab
        | cons q qs =>
          simp only [List.cons_append, List.cons.injEq] at e1 e2
          rcases e1 with ⟨e1a, -⟩
          rcases e2 with ⟨e2a, -⟩
          rw [e1a, e2a, cmpObj_refl] at hab
          exact Ordering.noConfusion hab

/-- The fuelled comparator agrees with the comparator whenever the
budget is at least the left tree's height (respectively the tallest left
child): the recursion terminates, its depth bounded by the tree height,
and it never fails. -/
theorem cmpFuel_adequate : ∀ fuel : Nat,
    (∀ a b, height a ≤ fuel → cmpObjFuel fuel a b = some (cmpObj a b)) ∧
    (∀ l₁ l₂, heightList l₁ ≤ fuel → cmpListFuel fuel l₁ l₂ = some (cmpList l₁ l₂)) := by
  intro fuel
  induction fuel with
  | zero =>
    constructor
    · intro a b h
      cases a with
      | atom n => cases b <;> rfl
      | setNode xs => simp [height] at h
    · intro l₁
      induction l₁ with
      | nil =>
        intro l₂ h
        cases l₂ <;> rfl
      | cons x xs ih =>
        intro l₂ h
        cases l₂ with
        | nil => rfl
        | cons y ys =>
          have hx0 : height x = 0 := by
            simp only [heightList] at h
            omega
          have hxs : heightList xs ≤ 0 := by
            simp only [heightList] at h
            omega
          have hobj : cmpObjFuel 0 x y = some (cmpObj x y) := by
            cases x with
            | atom n => cases y <;> rfl
            | setNode zs => simp [height] at hx0
          simp only [cmpListFuel, cmpList, hobj]
          cases cmpObj x y with
          | lt => rfl
          | gt => rfl
          | eq =>
            rw [ih ys hxs]
            rfl
  | succ fuel ihf =>
    have hobj : ∀ a b, height a ≤ fuel + 1 → cmpObjFuel (fuel + 1) a b = some (cmpObj a b) := by
      intro a b h
      cases a with
      | atom n => cases b <;> rfl
      | setNode xs =>
        cases b with
        | atom m => rfl
        | setNode ys =>
          have hxs : heightList xs ≤ fuel := by
            simp only [height] at h
            omega
          simp only [cmpObjFuel, cmpObj]
          rcases Nat.lt_trichotomy xs.length ys.length with hl | hl | hl
          · simp [hl]
          · simp only [hl, lt_self_iff_false, if_false]
            exact ihf.2 xs ys hxs
          · simp [hl, Nat.lt_asymm hl]
    refine ⟨hobj, ?_⟩
    intro l₁
    induction l₁ with
    | nil =>
      intro l₂ h
      cases l₂ <;> rfl
    | cons x xs ih =>
      intro l₂ h
      cases l₂ with
      | nil => rfl
      | cons y ys =>
        have hx : height x ≤ fuel + 1 := by
          simp only [heightList] at h
          omega
        have hxs : heightList xs ≤ fuel + 1 := by
          simp only [heightList] at h
          omega
        simp only [cmpListFuel, cmpList, hobj x y hx]
        cases cmpObj x y with
        | lt => rfl
        | gt => rfl
        | eq =>
          rw [ih ys hxs]
          rfl

/-- The spec's rendering of a list of already-rendered children:
comma-and-space separated. -/
def renderChildren : List String → String
  | [] => ""
  | [s] => s
  | s :: t :: rest => s ++ ", " ++ renderChildren (t :: rest)

/-- The set-node body rendering is the comma-separated rendering of the
children's own renderings, in children order. -/
theorem childrenToString_eq : ∀ cs : List SetObject,
    childrenToString cs = renderChildren (cs.map toString)
  | [] => rfl
  | [_] => rfl
  | x :: y :: rest => by
    simp only [childrenToString, List.map, renderChildren]
    rw [childrenToString_eq (y :: rest)]
    simp [List.map]

/-- The built children list is strictly ascending under `operator<`. -/
theorem buildChildren_sorted (l : List SetObject) :
    List.Pairwise (fun a b => lt a b = true) (buildChildren l) :=
  List.Pairwise.imp (fun h => (lt_iff _ _).mpr h) (buildChildren_pairwise l)

/-- C1: for every two set Handles built from the same multiset of
element-Handles, regardless of insertion order or separate construction
(a distinct allocation of the same content is not observable in this
embedding), the two Handles are equivalent under the order: neither
compares less than the other via `operator<`. -/
theorem c1_extensional_equality (l₁ l₂ : List SetObject) (p : l₁.Perm l₂) :
    equivO (mkSet l₁) (mkSet l₂) := by
  unfold mkSet
  rw [buildChildren_perm p]
  exact (equivO_iff_eq _ _).mpr rfl

/-- Witness for C1 at the concrete sets built from 1,2 and from 2,1. -/
theorem c1_extensional_equality_witness :
    equivO (mkSet [SetObject.atom "1", SetObject.atom "2"])
      (mkSet [SetObject.atom "2", SetObject.atom "1"]) :=
  c1_extensional_equality _ _
    (List.Perm.swap (SetObject.atom "2") (SetObject.atom "1") [])

/-- C2: `operator<` on Handles is a strict weak ordering: for all
Handles a, b, c, exactly one of a<b, b<a, a~b (neither side less) holds,
and if a<b and b<c then a<c. -/
theorem c2_strict_weak_ordering (a b c : SetObject) :
    ((lt a b = true ∧ lt b a = false ∧ ¬ equivO a b) ∨
     (lt b a = true ∧ lt a b = false ∧ ¬ equivO a b) ∨
     (equivO a b ∧ lt a b = false ∧ lt b a = false)) ∧
    (lt a b = true → lt b c = true → lt a c = true) := by
  constructor
  · cases h : cmpObj a b with
    | lt =>
      have hab : lt a b = true := (lt_iff a b).mpr h
      have hba : lt b a = false := by
        rw [lt_eq_false_iff, cmpObj_swap a b, h]
        exact fun he => Ordering.noConfusion he
      refine Or.inl ⟨hab, hba, fun he => ?_⟩
      have h1 := he.1
      rw [hab] at h1
      exact Bool.noConfusion h1
    | eq =>
      have hab : lt a b = false := by
        rw [lt_eq_false_iff, h]
        exact fun he => Ordering.noConfusion he
      have hba : lt b a = false := by
        rw [lt_eq_false_iff, cmpObj_swap a b, h]
        exact fun he => Ordering.noConfusion he
      exact Or.inr (Or.inr ⟨⟨hab, hba⟩, hab, hba⟩)
    | gt =>
      have hba : lt b a = true := by
        rw [lt_iff, cmpObj_swap a b, h]
        rfl
      have hab : lt a b = false := by
        rw [lt_eq_false_iff, h]
        exact fun he => Ordering.noConfusion he
      refine Or.inr (Or.inl ⟨hba, hab, fun he => ?_⟩)
      have h1 := he.2
      rw [hba] at h1
      exact Bool.noConfusion h1
  · intro h1 h2
    rw [lt_iff] at h1 h2 ⊢
    exact cmpObj_trans a b c h1 h2

/-- C3: kind precedence — a Handle referencing an atom orders strictly
before every Handle referencing a set node, whatever the set's size,
the empty set included. -/
theorem c3_kind_precedence (n : String) (cs : List SetObject) :
    lt (SetObject.atom n) (SetObject.setNode cs) = true := by
  rw [lt_iff]
  rfl

/-- C4: two atom Handles order by lexicographic comparison of their name
strings (the standard lexicographic order on the character lists, which
is also the `String` order); in particular atom "1" < atom "2". -/
theorem c4_atom_lexicographic :
    (∀ a b : String,
      lt (SetObject.atom a) (SetObject.atom b) = true ↔ List.Lex (· < ·) a.data b.data) ∧
    (∀ a b : String, lt (SetObject.atom a) (SetObject.atom b) = true ↔ a < b) ∧
    lt (SetObject.atom "1") (SetObject.atom "2") = true := by
  have key : ∀ a b : String,
      lt (SetObject.atom a) (SetObject.atom b) = true ↔ List.Lex (· < ·) a.data b.data := by
    intro a b
    rw [lt_iff]
    exact cmpChars_lt_iff_lex a.data b.data
  exact ⟨key, fun a b => (key a b).trans (strLt_bridge a b).symm, rfl⟩

/-- C5: size-first ordering — of two set-node Handles with different
cardinality, the one with fewer children orders strictly first under
`operator<`, regardless of the elements. -/
theorem c5_size_first (xs ys : List SetObject) (h : xs.length < ys.length) :
    lt (SetObject.setNode xs) (SetObject.setNode ys) = true := by
  rw [lt_iff]
  simp [cmpObj, h]

/-- Witness for C5: a 2-element set of large atoms orders before a
3-element set of small atoms. -/
theorem c5_size_first_witness :
    lt (SetObject.setNode [SetObject.atom "9", SetObject.atom "8"])
      (SetObject.setNode [SetObject.atom "1", SetObject.atom "2", SetObject.atom "3"]) = true :=
  c5_size_first _ _ (by decide)

/-- C6: set-node Handles of equal cardinality compare children pairwise
in canonical order, recursively: the verdict is `<` exactly when the
lists agree on a common prefix of pairwise-equivalent children and the
first pair beyond it compares `<`; and the Handles are equivalent
exactly when every child pair is equivalent. -/
theorem c6_equal_size_pairwise (xs ys : List SetObject) (h : xs.length = ys.length) :
    (lt (SetObject.setNode xs) (SetObject.setNode ys) = true ↔
      ∃ p x xs2 y ys2, xs = p ++ x :: xs2 ∧ ys = p ++ y :: ys2 ∧ lt x y = true) ∧
    (equivO (SetObject.setNode xs) (SetObject.setNode ys) ↔
      ∀ (i : Nat) (h1 : i < xs.length) (h2 : i < ys.length),
        equivO (xs.get ⟨i, h1⟩) (ys.get ⟨i, h2⟩)) := by
  constructor
  · rw [lt_iff]
    have hred : cmpObj (SetObject.setNode xs) (SetObject.setNode ys) = cmpList xs ys := by
      simp [cmpObj, h]
    rw [hred, cmpList_lt_char xs ys h]
    constructor
    · rintro ⟨p, x, xs2, y, ys2, e1, e2, hxy⟩
      exact ⟨p, x, xs2, y, ys2, e1, e2, (lt_iff x y).mpr hxy⟩
    · rintro ⟨p, x, xs2, y, ys2, e1, e2, hxy⟩
      exact ⟨p, x, xs2, y, ys2, e1, e2, (lt_iff x y).mp hxy⟩
  · rw [equivO_iff_eq]
    constructor
    · intro he i h1 h2
      have he2 : xs = ys := by
        injection he
      subst he2
      exact (equivO_iff_eq _ _).mpr rfl
    · intro hall
      have he2 : xs = ys :=
        List.ext_get h (fun i h1 h2 => (equivO_iff_eq _ _).mp (hall i h1 h2))
      rw [he2]

/-- Witness for C6 at the concrete singleton sets of atom 1 and atom 2. -/
theorem c6_equal_size_pairwise_witness :
    (lt (SetObject.setNode [SetObject.atom "1"]) (SetObject.setNode [SetObject.atom "2"]) = true ↔
      ∃ p x xs2 y ys2, [SetObject.atom "1"] = p ++ x :: xs2 ∧
        [SetObject.atom "2"] = p ++ y :: ys2 ∧ lt x y = true) ∧
    (equivO (SetObject.setNode [SetObject.atom "1"]) (SetObject.setNode [SetObject.atom "2"]) ↔
      ∀ (i : Nat) (h1 : i < List.length [SetObject.atom "1"])
        (h2 : i < List.length [SetObject.atom "2"]),
        equivO (List.get [SetObject.atom "1"] ⟨i, h1⟩) (List.get [SetObject.atom "2"] ⟨i, h2⟩)) :=
  c6_equal_size_pairwise [SetObject.atom "1"] [SetObject.atom "2"] rfl

/-- C7: `asSet` on an atom Handle fails with the TypeMismatch error and
never returns a value (in particular not an empty set); on a set-node
Handle it succeeds and returns the children — for a set built by the
construction discipline, an ordered, duplicate-collapsed list. -/
theorem c7_asSet_type_mismatch :
    (∀ n : String, asSet (SetObject.atom n) = .error SetError.typeMismatch) ∧
    (∀ (n : String) (res : List SetObject), asSet (SetObject.atom n) ≠ .ok res) ∧
    (∀ cs : List SetObject, asSet (SetObject.setNode cs) = .ok cs) ∧
    (∀ l : List SetObject, asSet (mkSet l) = .ok (buildChildren l) ∧
      List.Pairwise (fun a b => lt a b = true) (buildChildren l)) := by
  refine ⟨fun n => rfl, fun n res h => Except.noConfusion h, fun cs => rfl,
    fun l => ⟨rfl, buildChildren_sorted l⟩⟩

/-- C8: `toString` of an atom is its name verbatim; `toString` of a set
node is the brace-delimited, comma-separated rendering of its children's
renderings; a built set's children are in strictly ascending canonical
order with duplicates collapsed, so extensionally equal sets render to
the identical string — concretely, the sets built from 2,1,1 and from
1,2 both render as the string brace 1, 2 brace. -/
theorem c8_toString_canonical :
    (∀ n : String, toString (SetObject.atom n) = n) ∧
    (∀ cs : List SetObject,
      toString (SetObject.setNode cs) =
        "\x7b" ++ renderChildren (cs.map toString) ++ "\x7d") ∧
    (∀ l : List SetObject, List.Pairwise (fun a b => lt a b = true) (buildChildren l)) ∧
    (∀ a b : SetObject, equivO a b → toString a = toString b) ∧
    (∀ l₁ l₂ : List SetObject, l₁.Perm l₂ → toString (mkSet l₁) = toString (mkSet l₂)) ∧
    toString (mkSet [SetObject.atom "2", SetObject.atom "1", SetObject.atom "1"]) = "\x7b1, 2\x7d" ∧
    toString (mkSet [SetObject.atom "1", SetObject.atom "2"]) = "\x7b1, 2\x7d" := by
  refine ⟨fun n => rfl, fun cs => ?_, buildChildren_sorted,
    fun a b he => by rw [(equivO_iff_eq a b).mp he],
    fun l₁ l₂ p => ?_, rfl, rfl⟩
  · rw [← childrenToString_eq]
    rfl
  · unfold mkSet
    rw [buildChildren_perm p]

/-- C9: the comparator is total and terminating on well-formed input:
with any recursion budget of at least the left tree's height the fuelled
comparator finishes with exactly the comparator's verdict (each
recursive step descends into children, consuming one unit), and
atom-versus-set-node comparisons answer at every budget without error. -/
theorem c9_total_terminating :
    (∀ (fuel : Nat) (a b : SetObject), height a ≤ fuel →
      cmpObjFuel fuel a b = some (cmpObj a b)) ∧
    (∀ (n : String) (cs : List SetObject) (fuel : Nat),
      cmpObjFuel fuel (SetObject.atom n) (SetObject.setNode cs) = some .lt ∧
      cmpObjFuel fuel (SetObject.setNode cs) (SetObject.atom n) = some .gt) := by
  refine ⟨fun fuel a b h => (cmpFuel_adequate fuel).1 a b h, fun n cs fuel => ⟨?_, ?_⟩⟩
  · cases fuel <;> rfl
  · cases fuel <;> rfl

/-- C10: the set node built from the empty collection is a set: `isSet`
answers true, `asSet` succeeds with the empty children list, and no atom
is equivalent to it under the order. -/
theorem c10_empty_set_is_set :
    isSet (SetObject.setNode []) = true ∧
    asSet (SetObject.setNode []) = .ok [] ∧
    mkSet [] = SetObject.setNode [] ∧
    (∀ n : String, isSet (SetObject.atom n) = false) ∧
    (∀ n : String, ¬ equivO (SetObject.setNode []) (SetObject.atom n)) := by
  refine ⟨rfl, rfl, rfl, fun n => rfl, fun n h => ?_⟩
  exact SetObject.noConfusion ((equivO_iff_eq _ _).mp h)

end SetTheory
